import Mathlib

/-!
Verification of the MQTT MCP server engine (`mqtt_mcp_server.py`).

The development shallowly embeds the broker-facing engine of the server:
the last-value message cache maintained by the on-message callback, the
`publish_message` validation pipeline, the `discover_topics` /
`get_topic_value` subscribe-and-collect operations, the three-tier topic
search matcher of `handle_search_topics`, and the serialization lock that
guards discovery sweeps.  External effects (the paho client, wall-clock
time, broker return codes, message arrivals) are passed in explicitly as
parameters; cooperative await points are the only places where arrivals
are delivered.
-/

namespace MqttMcp

/-- Message snapshot exactly as built by the `on_message` callback of
`MQTTClientWrapper`: `{topic, payload, qos, retain, timestamp}`.  Payload
bytes are modelled after decoding, timestamps as naturals. -/
structure Msg where
  topic : String
  payload : String
  qos : Nat
  retain : Bool
  timestamp : Nat
deriving Repr, DecidableEq

/-- The message cache `self.messages`: an association list from topic path
to snapshot, mirroring a Python `dict` (one binding per key, updated in
place). -/
abbrev Cache := List (String × Msg)

/-- `self.messages[message.topic] = {...}`: Python `dict` assignment.
If the key is present its binding is overwritten in place, otherwise a new
binding is appended. -/
def cacheWrite : Cache → String → Msg → Cache
  | [], t, m => [(t, m)]
  | (t', m') :: rest, t, m =>
      if t' = t then (t', m) :: rest else (t', m') :: cacheWrite rest t m

/-- `self.messages.get(topic)`: lookup in the cache. -/
def cacheGet : Cache → String → Option Msg
  | [], _ => none
  | (t', m) :: rest, t => if t' = t then some m else cacheGet rest t

/-- `del self.messages[topic]` (a no-op when absent, matching the guarded
`if topic in self.messages` in `get_topic_value`). -/
def cacheDel : Cache → String → Cache
  | [], _ => []
  | (t', m) :: rest, t => if t' = t then rest else (t', m) :: cacheDel rest t

/-- The `_on_message` callback: decodes the payload and fully replaces the
cache entry for the message's topic with a fresh snapshot. -/
def on_message (cache : Cache) (topic payload : String) (qos : Nat)
    (retain : Bool) (now : Nat) : Cache :=
  cacheWrite cache topic
    { topic := topic, payload := payload, qos := qos, retain := retain,
      timestamp := now }

/-- `mqtt.MQTT_ERR_SUCCESS`. -/
def MQTT_ERR_SUCCESS : Nat := 0

/-- The whitespace characters Python's `str.strip()` removes (ASCII
fragment). -/
def isPySpace (c : Char) : Bool :=
  c = ' ' || c = '\t' || c = '\n' || c = '\r' || c = '\x0b' || c = '\x0c'

/-- Python `str.strip()` on a character list: drop whitespace from both
ends. -/
def pyStrip (s : List Char) : List Char :=
  ((s.dropWhile isPySpace).reverse.dropWhile isPySpace).reverse

/-- Errors raised by the wrapper's operations: `ConnectionError(...)` from
the `ensure_connected` guard, `ValueError(...)` from publish validation,
and plain `Exception(...)` from a rejected subscribe. -/
inductive MqttError where
  | connectionError (msg : String)
  | valueError (msg : String)
  | exception (msg : String)
deriving Repr, DecidableEq

/-- `True` exactly on the `ConnectionError` constructor (the class the MCP
handlers catch separately from generic `Exception`). -/
def isConnErr : MqttError → Bool
  | .connectionError _ => true
  | _ => false

/-- `True` exactly on the `ValueError` constructor (validation errors). -/
def isValErr : MqttError → Bool
  | .valueError _ => true
  | _ => false

/-- Result dictionary returned by `publish_message`: the success shape
`{success=True, topic, payload, retain, qos, message_id, timestamp}` or the
failure shape `{success=False, topic, error, error_code}`. -/
inductive PubReturn where
  | success (topic payload : String) (retain : Bool) (qos : Nat)
      (message_id : Nat) (timestamp : Nat)
  | failure (topic error : String) (error_code : Nat)
deriving Repr, DecidableEq

/-- `MQTTClientWrapper.publish_message`.  Environment inputs: `connected`
(the current flag), `connectOk` (whether a fresh `connect()` would
succeed), `brokerRc`/`mid` (the return code and message id the broker call
reports), `now` (wall clock).  Returns the raised-or-returned outcome
together with a flag recording whether `self.client.publish` was reached. -/
def publish_message (connected connectOk : Bool) (topic payload : String)
    (retain : Bool) (qos : Nat) (brokerRc mid now : Nat) :
    Except MqttError PubReturn × Bool :=
  if ¬ (connected || connectOk) then
    (.error (.connectionError "Not connected to MQTT broker"), false)
  else if ¬ (qos = 0 ∨ qos = 1 ∨ qos = 2) then
    (.error (.valueError ("Invalid QoS level: " ++ toString qos ++
      ". Must be 0, 1, or 2.")), false)
  else if topic.data = [] ∨ pyStrip topic.data = [] then
    (.error (.valueError "Topic cannot be empty"), false)
  else if topic.data.contains '#' || topic.data.contains '+' then
    (.error (.valueError "Cannot publish to wildcard topics (# or +)"), false)
  else if brokerRc = MQTT_ERR_SUCCESS then
    (.ok (.success topic payload retain qos mid now), true)
  else
    (.ok (.failure topic
      ("Publish failed with error code: " ++ toString brokerRc) brokerRc),
      true)

/-- Outcome of a `discover_topics` call: the returned-or-raised result, the
state of `self.messages` when the call finishes (normally or by raising),
and whether the collection dwell (`await asyncio.sleep(timeout)`) was
reached. -/
structure DiscoverOutcome where
  result : Except MqttError Cache
  cache : Cache
  waited : Bool
deriving Repr

/-- `MQTTClientWrapper.discover_topics` (sequential view of one call while
it holds `self._lock`).  `subscribeRc` is what `self.client.subscribe`
returns; `arrivals` are the messages the broker delivers during the dwell,
in arrival order; `cache` is `self.messages` on entry. -/
def discover_topics (connected connectOk : Bool) (base_path : String)
    (subscribeRc : Nat) (arrivals : List Msg) (cache : Cache) :
    DiscoverOutcome :=
  if ¬ (connected || connectOk) then
    { result := .error (.connectionError "Not connected to MQTT broker"),
      cache := cache, waited := false }
  else
    -- self.messages.clear()
    if subscribeRc ≠ MQTT_ERR_SUCCESS then
      { result := .error (.exception ("Failed to subscribe to " ++ base_path)),
        cache := [], waited := false }
    else
      let collected := arrivals.foldl (fun c m => cacheWrite c m.topic m) []
      { result := .ok collected, cache := collected, waited := true }

/-- The poll loop of `get_topic_value`: up to `fuel` iterations of
`if topic in messages: break; await asyncio.sleep(0.1)`.  The cache slice
for the requested topic starts empty (the entry was just deleted);
`arr i` lists the messages for that topic the network thread delivers
during the `i`-th sleep (each delivery overwrites the previous one,
last-write-wins).  Returns `messages.get(topic)` as evaluated after the
loop exits. -/
def pollLoop : Nat → Option Msg → (Nat → List Msg) → Nat → Option Msg
  | 0, cache, _, _ => cache
  | fuel + 1, cache, arr, i =>
      if cache.isSome then cache
      else pollLoop fuel ((arr i).getLast?.elim cache some) arr (i + 1)

/-- `MQTTClientWrapper.get_topic_value`: ensure-connected guard, delete the
stale entry, subscribe (return code `subscribeRc`), then the bounded poll
loop; `fuel` is the number of poll iterations the `timeout` allows. -/
def get_topic_value (connected connectOk : Bool) (topic : String)
    (subscribeRc : Nat) (fuel : Nat) (arr : Nat → List Msg) :
    Except MqttError (Option Msg) :=
  if ¬ (connected || connectOk) then
    .error (.connectionError "Not connected to MQTT broker")
  else if subscribeRc ≠ MQTT_ERR_SUCCESS then
    .error (.exception ("Failed to subscribe to " ++ topic))
  else
    .ok (pollLoop fuel none arr 0)

/-- Tokens of the regular expression the broker-wildcard branch of
`handle_search_topics` builds:
`mqtt_pattern = pattern.replace("+", "[^/]+").replace("#", ".*")`,
matched with `re.match(f"^{mqtt_pattern}$", topic_path)`.  `lit c` is a
literal character, `anyChar` the regex `.` (any character except a
newline), `nonSlashPlus` the class `[^/]+` (one or more characters other
than `/`; a negated class also matches newlines), `anyStar` the suffix
wildcard `.*`. -/
inductive RTok where
  | lit (c : Char)
  | anyChar
  | nonSlashPlus
  | anyStar
deriving Repr, DecidableEq

/-- Anchored matching of a token list against the character list of a
topic path, with Python's backtracking semantics. -/
def rmatch : List RTok → List Char → Bool
  | [], [] => true
  | [], _ :: _ => false
  | RTok.lit _ :: _, [] => false
  | RTok.lit c :: ts, d :: ds => c == d && rmatch ts ds
  | RTok.anyChar :: _, [] => false
  | RTok.anyChar :: ts, d :: ds => d ≠ '\n' && rmatch ts ds
  | RTok.anyStar :: ts, [] => rmatch ts []
  | RTok.anyStar :: ts, d :: ds =>
      rmatch ts (d :: ds) || (d ≠ '\n' && rmatch (RTok.anyStar :: ts) ds)
  | RTok.nonSlashPlus :: _, [] => false
  | RTok.nonSlashPlus :: ts, d :: ds =>
      d ≠ '/' && (rmatch ts ds || rmatch (RTok.nonSlashPlus :: ts) ds)
termination_by ts ds => (ds.length, ts.length)

/-- `re.match(f"^{...}$", t)`: the `$` anchor also matches just before a
newline that ends the string, so the regex may either consume all of `t`
or all of `t` minus one trailing newline. -/
def pyAnchoredMatch (ts : List RTok) (t : String) : Bool :=
  rmatch ts t.data ||
    (match t.data.getLast? with
     | some c => c == '\n' && rmatch ts t.data.dropLast
     | none => false)

/-- Regex metacharacters (other than `.`) that the embedding does not
model; a broker-wildcard pattern containing one of them is outside the
modelled fragment.  The source inserts pattern characters into the regex
unescaped, so these would be read as regex syntax there too. -/
def regexSpecial : List Char :=
  ['\\', '^', '$', '|', '?', '*', '(', ')', '[', ']', '\x7b', '\x7d']

/-- Translation of one pattern character, following the two `replace`
calls: `+` becomes `[^/]+`, `#` becomes `.*`, every other character is
inserted into the regex verbatim — hence `.` is the regex any-character,
and further metacharacters (not modelled) keep their regex meaning. -/
def tokOfChar (c : Char) : Option RTok :=
  if c = '+' then some RTok.nonSlashPlus
  else if c = '#' then some RTok.anyStar
  else if c = '.' then some RTok.anyChar
  else if regexSpecial.contains c then none
  else some (RTok.lit c)

/-- The whole broker-wildcard translation; `none` when the pattern falls
outside the modelled regex fragment. -/
def mqttTranslate : List Char → Option (List RTok)
  | [] => some []
  | c :: cs =>
      match tokOfChar c, mqttTranslate cs with
      | some t, some ts => some (t :: ts)
      | _, _ => none

/-- `fnmatch.fnmatch` matching for patterns without bracket sets: `*`
matches any run of characters (its translation carries an inline DOTALL
flag, so newlines are included), `?` any single character, anything else
itself.  On POSIX `os.path.normcase` is the identity, so no case folding
happens. -/
def globMatch : List Char → List Char → Bool
  | [], ds => ds.isEmpty
  | p :: ps, ds =>
      if p = '*' then
        globMatch ps ds ||
          (match ds with
           | [] => false
           | _ :: ds2 => globMatch (p :: ps) ds2)
      else
        match ds with
        | [] => false
        | d :: ds2 => if p = '?' then globMatch ps ds2
                      else p == d && globMatch ps ds2
termination_by ps ds => (ds.length, ps.length)

/-- Boolean starts-with test on character lists (helper for `strIn`). -/
def leadsWith : List Char → List Char → Bool
  | [], _ => true
  | _ :: _, [] => false
  | n :: ns, h :: hs => n == h && leadsWith ns hs

/-- Python's substring containment `needle in hay` on character lists. -/
def strIn (needle : List Char) : List Char → Bool
  | [] => needle.isEmpty
  | h :: hs => leadsWith needle (h :: hs) || strIn needle hs

/-- The characters `handle_search_topics` probes for:
`any(c in pattern for c in ["*", "?", "+", "#"])`. -/
def mqttWildcardChars : List Char := ['*', '?', '+', '#']

/-- Python `str.lower()` on one character (ASCII fragment; topic paths
and keywords in this system are ASCII). -/
def lowerCh (c : Char) : Char :=
  if 'A' ≤ c ∧ c ≤ 'Z' then Char.ofNat (c.toNat + 32) else c

/-- The three-tier filter of `handle_search_topics` applied to one topic
path.  Tier 1 (pattern contains `+` or `#`): the translated regex,
anchored.  Tier 2 (otherwise `*` or `?` present):
`fnmatch.fnmatch(topic_path, f"*{pattern}*")`.  Tier 3: case-insensitive
substring search.  `none` marks the unmodelled fragments (extra regex
metacharacters in tier 1, bracket sets in tier 2). -/
def searchMatches (pat topicPath : String) : Option Bool :=
  if pat.data.any (fun c => mqttWildcardChars.contains c) then
    if pat.data.contains '+' || pat.data.contains '#' then
      (mqttTranslate pat.data).map (fun ts => pyAnchoredMatch ts topicPath)
    else if pat.data.contains '[' then
      none
    else
      some (globMatch ('*' :: pat.data ++ ['*']) topicPath.data)
  else
    some (strIn (pat.data.map lowerCh) (topicPath.data.map lowerCh))

/-- Baseline for reading a broker-wildcard pattern *literally* (the
escaped translation the source does not perform): `+` and `#` keep their
wildcard meaning, every other character — `.` included — matches only
itself. -/
def tokOfCharEscaped (c : Char) : RTok :=
  if c = '+' then RTok.nonSlashPlus
  else if c = '#' then RTok.anyStar
  else RTok.lit c

/-- Literal (escaped) translation of a whole broker-wildcard pattern. -/
def mqttTranslateEscaped (p : List Char) : List RTok :=
  p.map tokOfCharEscaped

/-- The observable actions of one `discover_topics` call: acquire
`self._lock`, clear the cache, subscribe, the collection dwell,
unsubscribe, take the snapshot copy, release the lock. -/
inductive DiscAction where
  | acquire
  | clear
  | subscribe
  | wait
  | unsubscribe
  | snapshot
  | release
deriving Repr, DecidableEq

/-- The body of `discover_topics` in program order; everything between
`acquire` and `release` runs inside `async with self._lock`. -/
def discoverProg : List DiscAction :=
  [DiscAction.acquire, DiscAction.clear, DiscAction.subscribe,
   DiscAction.wait, DiscAction.unsubscribe, DiscAction.snapshot,
   DiscAction.release]

/-- Interleaving state for two concurrent `discover_topics` calls
(tasks indexed by `Bool`): each task's program counter into
`discoverProg`, and the holder of `self._lock`. -/
structure SchedSt where
  pc : Bool → Nat
  lock : Option Bool

/-- Advance the program counter of task `i`. -/
def bump (s : SchedSt) (i : Bool) : Bool → Nat :=
  fun j => if j = i then s.pc i + 1 else s.pc j

/-- One scheduler step: a task may execute its next action of
`discoverProg`; `acquire` requires the lock to be free and takes it,
`release` gives it back, every other action requires the task to hold
the lock (it sits inside the `async with` block). -/
inductive Step : SchedSt → Bool × DiscAction → SchedSt → Prop where
  | acquire (s : SchedSt) (i : Bool) :
      discoverProg.get? (s.pc i) = some DiscAction.acquire →
      s.lock = none →
      Step s (i, DiscAction.acquire) ⟨bump s i, some i⟩
  | inside (s : SchedSt) (i : Bool) (a : DiscAction) :
      discoverProg.get? (s.pc i) = some a →
      a ≠ DiscAction.acquire →
      a ≠ DiscAction.release →
      s.lock = some i →
      Step s (i, a) ⟨bump s i, some i⟩
  | release (s : SchedSt) (i : Bool) :
      discoverProg.get? (s.pc i) = some DiscAction.release →
      s.lock = some i →
      Step s (i, DiscAction.release) ⟨bump s i, none⟩

/-- Reachability from the initial state (both tasks at the start, lock
free), recording the trace of executed actions in order. -/
inductive Reaches : SchedSt → List (Bool × DiscAction) → Prop where
  | init : Reaches ⟨fun _ => 0, none⟩ []
  | step {s : SchedSt} {t : List (Bool × DiscAction)}
      {e : Bool × DiscAction} {s' : SchedSt} :
      Reaches s t → Step s e s' → Reaches s' (t ++ [e])

/-! ### Helper lemmas -/

theorem contains_iff_mem {c : Char} {l : List Char} :
    l.contains c = true ↔ c ∈ l := by
  simp

theorem pyStrip_eq_nil {s : List Char} (h : pyStrip s = []) :
    ∀ x ∈ s, isPySpace x := by
  unfold pyStrip at h
  have h1 : (s.dropWhile isPySpace).reverse.dropWhile isPySpace = [] := by
    simpa using h
  have h3 : ∀ x ∈ s.dropWhile isPySpace, isPySpace x := by
    intro x hx
    exact List.dropWhile_eq_nil_iff.mp h1 x (List.mem_reverse.mpr hx)
  intro x hx
  rw [← List.takeWhile_append_dropWhile (p := isPySpace) (l := s)] at hx
  rcases List.mem_append.mp hx with h4 | h4
  · exact List.mem_takeWhile_imp h4
  · exact h3 x h4

/-! ### C1: publish validation versus broker interaction -/

/-- C1 (counterexample): a publish call issued while the client is
disconnected and cannot reconnect, with a topic containing `#`.  The
`ensure_connected` guard runs before any validation, so the call fails
with a `ConnectionError`, not with a validation error — the claim's
"for every publish call, validation is performed and fails before any
broker interaction" does not hold on this input. -/
theorem publish_wildcard_validation_cex :
    publish_message false false "sensors/#" "x" false 1 0 1 0
      = (Except.error (MqttError.connectionError "Not connected to MQTT broker"),
         false)
    ∧ isValErr (MqttError.connectionError "Not connected to MQTT broker")
        = false :=
  ⟨rfl, rfl⟩

/-- C1 (amended): once the `ensure_connected` guard passes, validation is
performed and fails before the broker publish call: a topic containing
`+` or `#` makes `publish_message` raise a `ValueError` and
`self.client.publish` is never reached; conversely whenever the broker
publish call is reached, all three validations passed. -/
theorem publish_validation_before_broker (c k r : Bool) (t p : String)
    (q rc mid now : Nat) (h : (c || k) = true) :
    ((t.data.contains '#' || t.data.contains '+') = true →
      (∃ e, (publish_message c k t p r q rc mid now).1
          = Except.error (MqttError.valueError e))
        ∧ (publish_message c k t p r q rc mid now).2 = false)
    ∧ ((publish_message c k t p r q rc mid now).2 = true →
        (q = 0 ∨ q = 1 ∨ q = 2) ∧ pyStrip t.data ≠ []
          ∧ (t.data.contains '#' || t.data.contains '+') = false) := by
  constructor
  · intro hw
    simp only [Bool.or_eq_true, contains_iff_mem] at hw
    by_cases hq : q = 0 ∨ q = 1 ∨ q = 2
    · have hne : ¬ (t.data = [] ∨ pyStrip t.data = []) := by
        rintro (h0 | h0)
        · rw [h0] at hw
          simp at hw
        · rcases hw with hc | hc
          · have hm := pyStrip_eq_nil h0 _ hc
            simp [isPySpace] at hm
          · have hm := pyStrip_eq_nil h0 _ hc
            simp [isPySpace] at hm
      rcases hw with hc | hc <;> simp [publish_message, h, hq, hne, hc]
    · simp [publish_message, h, hq]
  · intro hcall
    by_cases hq : q = 0 ∨ q = 1 ∨ q = 2
    · by_cases he : t.data = [] ∨ pyStrip t.data = []
      · simp [publish_message, h, hq, he] at hcall
      · by_cases hw : '#' ∈ t.data ∨ '+' ∈ t.data
        · rcases hw with hc | hc <;>
            simp [publish_message, h, hq, he, hc] at hcall
        · push_neg at hw
          refine ⟨hq, fun h0 => he (Or.inr h0), ?_⟩
          simp only [Bool.or_eq_false_iff]
          exact ⟨by simpa using hw.1, by simpa using hw.2⟩
    · simp [publish_message, h, hq] at hcall

/-- Witness for C1's amended theorem at a concrete input. -/
theorem publish_validation_before_broker_witness :
    (publish_message true false "sensors/#" "x" false 1 0 1 0).2 = false :=
  ((publish_validation_before_broker true false false "sensors/#" "x" 1 0 1 0
    rfl).1 (by decide)).2

/-! ### C3: discover subscribe failure -/

/-- C3 (counterexample): a discover call whose subscribe step is rejected
by the broker (return code 4, `MQTT_ERR_NO_CONN`) raises the plain
`Exception("Failed to subscribe to ...")` of `discover_topics`, which is
not a `ConnectionError`-class error. -/
theorem discover_subscribe_error_cex :
    (discover_topics true true "#" 4 [] []).result
        = Except.error (MqttError.exception "Failed to subscribe to #")
      ∧ isConnErr (MqttError.exception "Failed to subscribe to #") = false :=
  ⟨rfl, rfl⟩

/-- C3 (amended): if the subscribe step of a discover call fails, the call
fails before any waiting begins; a connection failure detected by the
`ensure_connected` guard raises a `ConnectionError`, while a rejected
subscribe raises a generic `Exception`. -/
theorem discover_subscribe_failure_before_wait (c k : Bool) (b : String)
    (rc : Nat) (arr : List Msg) (h0 : Cache) :
    ((c || k) = true → rc ≠ MQTT_ERR_SUCCESS →
      (discover_topics c k b rc arr h0).result
          = Except.error (MqttError.exception ("Failed to subscribe to " ++ b))
        ∧ (discover_topics c k b rc arr h0).waited = false)
    ∧ ((c || k) = false →
      (discover_topics c k b rc arr h0).result
          = Except.error (MqttError.connectionError "Not connected to MQTT broker")
        ∧ (discover_topics c k b rc arr h0).waited = false) := by
  constructor
  · intro h hrc
    simp [discover_topics, h, hrc]
  · intro h
    simp [discover_topics, h]

/-- Witness for C3's amended theorem at a concrete input. -/
theorem discover_subscribe_failure_before_wait_witness :
    (discover_topics true false "#" 4 [] []).waited = false :=
  ((discover_subscribe_failure_before_wait true false "#" 4 [] []).1 rfl
    (by decide)).2

/-! ### C10: failed discover loses the cache -/

/-- C10: when the subscribe step of a discover call fails after the
connection guard passed, `self.messages` has already been cleared — the
call raises, yet every previously cached topic snapshot is gone (the
operation is not atomic on error). -/
theorem discover_failed_subscribe_clears_cache (c k : Bool) (b : String)
    (rc : Nat) (arr : List Msg) (h0 : Cache) (h : (c || k) = true)
    (hrc : rc ≠ MQTT_ERR_SUCCESS) :
    (discover_topics c k b rc arr h0).cache = []
      ∧ ∃ e, (discover_topics c k b rc arr h0).result = Except.error e := by
  simp [discover_topics, h, hrc]

/-- Witness for C10 at a concrete input with a non-empty prior cache. -/
theorem discover_failed_subscribe_clears_cache_witness :
    (discover_topics true true "#" 4 []
        [("plant/line1", ⟨"plant/line1", "72", 1, true, 5⟩)]).cache = [] :=
  (discover_failed_subscribe_clears_cache true true "#" 4 []
    [("plant/line1", ⟨"plant/line1", "72", 1, true, 5⟩)] rfl (by decide)).1

/-! ### C6: publish result shapes -/

/-- C6: with valid inputs and an established connection, a non-success
broker return code makes `publish_message` *return* the structured
failure dictionary `{success=False, topic, error, error_code}` (nothing
is raised), and a success return code makes it return the success
dictionary carrying the broker-assigned message id and a timestamp. -/
theorem publish_result_shape (c k r : Bool) (t p : String)
    (q rc mid now : Nat) (h : (c || k) = true)
    (hq : q = 0 ∨ q = 1 ∨ q = 2)
    (ht : ¬ (t.data = [] ∨ pyStrip t.data = []))
    (hw : (t.data.contains '#' || t.data.contains '+') = false) :
    (rc ≠ MQTT_ERR_SUCCESS →
      publish_message c k t p r q rc mid now
        = (Except.ok (PubReturn.failure t
            ("Publish failed with error code: " ++ toString rc) rc), true))
    ∧ (rc = MQTT_ERR_SUCCESS →
      publish_message c k t p r q rc mid now
        = (Except.ok (PubReturn.success t p r q mid now), true)) := by
  have hw' : '#' ∉ t.data ∧ '+' ∉ t.data := by
    simpa [contains_iff_mem] using hw
  constructor
  · intro hrc
    simp [publish_message, h, hq, ht, hw'.1, hw'.2, hrc]
  · intro hrc
    simp [publish_message, h, hq, ht, hw'.1, hw'.2, hrc]

/-- Witness for C6 at concrete inputs (one failing, one succeeding broker
return code). -/
theorem publish_result_shape_witness :
    publish_message true false "a/b" "v" false 1 3 7 9
      = (Except.ok (PubReturn.failure "a/b"
          "Publish failed with error code: 3" 3), true)
    ∧ publish_message true false "a/b" "v" false 1 0 7 9
      = (Except.ok (PubReturn.success "a/b" "v" false 1 7 9), true) :=
  ⟨(publish_result_shape true false false "a/b" "v" 1 3 7 9 rfl
      (Or.inr (Or.inl rfl)) (by decide) (by decide)).1 (by decide),
   (publish_result_shape true false false "a/b" "v" 1 0 7 9 rfl
      (Or.inr (Or.inl rfl)) (by decide) (by decide)).2 rfl⟩

/-! ### C5: single-topic read semantics -/

/-- Once a snapshot is in the cache slice, the poll loop returns it. -/
theorem pollLoop_some (fuel : Nat) (m : Msg) (a : Nat → List Msg) (i : Nat) :
    pollLoop fuel (some m) a i = some m := by
  cases fuel <;> simp [pollLoop]

/-- If nothing arrives during the whole window, the poll loop returns
`none`. -/
theorem pollLoop_quiet (fuel : Nat) (a : Nat → List Msg) (i : Nat)
    (h : ∀ j, j < fuel → a (i + j) = []) :
    pollLoop fuel none a i = none := by
  induction fuel generalizing i with
  | zero => rfl
  | succ f ih =>
      have h0 : a i = [] := by simpa using h 0 (Nat.succ_pos f)
      have : pollLoop (f + 1) none a i = pollLoop f none a (i + 1) := by
        simp [pollLoop, h0]
      rw [this]
      exact ih (i + 1) fun j hj => by
        have := h (j + 1) (Nat.succ_lt_succ hj)
        simpa [Nat.add_assoc, Nat.add_comm 1 j] using this

/-- If the first non-empty delivery batch inside the window is
`l ++ [m]`, the poll loop returns `m` — the most recent snapshot written
for the topic when the loop first observes it. -/
theorem pollLoop_first_batch (d : Nat) (fuel : Nat) (a : Nat → List Msg)
    (i : Nat) (l : List Msg) (m : Msg) (hd : d < fuel)
    (hz : ∀ j, j < d → a (i + j) = []) (ha : a (i + d) = l ++ [m]) :
    pollLoop fuel none a i = some m := by
  induction d generalizing fuel i with
  | zero =>
      obtain ⟨f, rfl⟩ : ∃ f, fuel = f + 1 :=
        ⟨fuel - 1, (Nat.succ_pred_eq_of_pos hd).symm⟩
      have h0 : a i = l ++ [m] := by simpa using ha
      simp [pollLoop, h0, pollLoop_some]
  | succ d ih =>
      obtain ⟨f, rfl⟩ : ∃ f, fuel = f + 1 :=
        ⟨fuel - 1, (Nat.succ_pred_eq_of_pos (Nat.lt_of_le_of_lt (Nat.zero_le _) hd)).symm⟩
      have h0 : a i = [] := by simpa using hz 0 (Nat.succ_pos d)
      have hstep : pollLoop (f + 1) none a i = pollLoop f none a (i + 1) := by
        simp [pollLoop, h0]
      rw [hstep]
      refine ih f (i + 1) (Nat.lt_of_succ_lt_succ hd) (fun j hj => ?_) ?_
      · have := hz (j + 1) (Nat.succ_lt_succ hj)
        simpa [Nat.add_assoc, Nat.add_comm 1 j] using this
      · have : i + (d + 1) = i + 1 + d := by omega
        rw [← this]
        exact ha

/-- C5: a single-topic read with an established connection and accepted
subscribe always *returns* (no timeout error is ever raised): it returns
`none` ("not found") when no message for the topic arrives within the
poll window, and returns the most recent snapshot written for the topic
when the first non-empty delivery batch is observed. -/
theorem get_topic_value_semantics (c k : Bool) (t : String) (fuel : Nat)
    (a : Nat → List Msg) (h : (c || k) = true) :
    (∃ v, get_topic_value c k t MQTT_ERR_SUCCESS fuel a = Except.ok v)
    ∧ ((∀ j, j < fuel → a j = []) →
        get_topic_value c k t MQTT_ERR_SUCCESS fuel a = Except.ok none)
    ∧ (∀ d l m, d < fuel → (∀ j, j < d → a j = []) → a d = l ++ [m] →
        get_topic_value c k t MQTT_ERR_SUCCESS fuel a = Except.ok (some m)) := by
  have hval : get_topic_value c k t MQTT_ERR_SUCCESS fuel a
      = Except.ok (pollLoop fuel none a 0) := by
    simp [get_topic_value, h, MQTT_ERR_SUCCESS]
  refine ⟨⟨pollLoop fuel none a 0, hval⟩, fun hq => ?_, fun d l m hd hz ha => ?_⟩
  · rw [hval, pollLoop_quiet fuel a 0 (fun j hj => by simpa using hq j hj)]
  · rw [hval, pollLoop_first_batch d fuel a 0 l m hd
      (fun j hj => by simpa using hz j hj) (by simpa using ha)]

/-- Witness for C5 at concrete inputs: a silent window yields `none`;
two snapshots delivered in the second window yield the later one. -/
theorem get_topic_value_semantics_witness :
    get_topic_value true false "plant/t" MQTT_ERR_SUCCESS 3 (fun _ => [])
      = Except.ok none
    ∧ get_topic_value true false "plant/t" MQTT_ERR_SUCCESS 3
        (fun i => if i = 1 then
            [⟨"plant/t", "71", 1, true, 4⟩, ⟨"plant/t", "72", 1, true, 5⟩]
          else [])
      = Except.ok (some ⟨"plant/t", "72", 1, true, 5⟩) :=
  ⟨(get_topic_value_semantics true false "plant/t" 3 (fun _ => []) rfl).2.1
      (fun _ _ => rfl),
   (get_topic_value_semantics true false "plant/t" 3
      (fun i => if i = 1 then
          [⟨"plant/t", "71", 1, true, 4⟩, ⟨"plant/t", "72", 1, true, 5⟩]
        else []) rfl).2.2 1 [⟨"plant/t", "71", 1, true, 4⟩]
      ⟨"plant/t", "72", 1, true, 5⟩ (by decide)
      (fun j hj => by interval_cases j; rfl) rfl⟩

/-! ### C7: one entry per topic, last write wins -/

/-- Keys after a dict assignment: unchanged when the key was present,
extended by the key otherwise. -/
theorem keys_cacheWrite (c : Cache) (t : String) (m : Msg) :
    (cacheWrite c t m).map Prod.fst
      = if t ∈ c.map Prod.fst then c.map Prod.fst
        else c.map Prod.fst ++ [t] := by
  induction c with
  | nil => simp [cacheWrite]
  | cons hd tl ih =>
      obtain ⟨t', m'⟩ := hd
      by_cases he : t' = t
      · subst he
        simp [cacheWrite]
      · have hne : ¬ t = t' := fun hh => he hh.symm
        by_cases hm : t ∈ tl.map Prod.fst <;>
          simp [cacheWrite, he, ih, hne, hm]

/-- Lookup after a dict assignment at the written key: the new snapshot. -/
theorem cacheGet_write_self (c : Cache) (t : String) (m : Msg) :
    cacheGet (cacheWrite c t m) t = some m := by
  induction c with
  | nil => simp [cacheWrite, cacheGet]
  | cons hd tl ih =>
      obtain ⟨t', m'⟩ := hd
      by_cases he : t' = t
      · subst he
        simp [cacheWrite, cacheGet]
      · simp [cacheWrite, cacheGet, he, ih]

/-- Lookup after a dict assignment at any other key is unchanged. -/
theorem cacheGet_write_other (c : Cache) (t u : String) (m : Msg)
    (hu : u ≠ t) : cacheGet (cacheWrite c t m) u = cacheGet c u := by
  induction c with
  | nil => simp [cacheWrite, cacheGet, Ne.symm hu]
  | cons hd tl ih =>
      obtain ⟨t', m'⟩ := hd
      by_cases he : t' = t
      · subst he
        simp [cacheWrite, cacheGet, Ne.symm hu]
      · simp [cacheWrite, cacheGet, he, ih]

/-- C7: the message cache keeps at most one entry per topic path — the
`on_message` write preserves distinctness of the topic keys — and each
receipt fully replaces the entry for its topic with the fresh snapshot
(last-write-wins), leaving every other topic's entry untouched. -/
theorem cache_one_entry_last_write_wins (c : Cache) (t p : String) (q : Nat)
    (r : Bool) (n : Nat) (h : (c.map Prod.fst).Nodup) :
    ((on_message c t p q r n).map Prod.fst).Nodup
    ∧ cacheGet (on_message c t p q r n) t
        = some { topic := t, payload := p, qos := q, retain := r,
                 timestamp := n }
    ∧ ∀ u, u ≠ t → cacheGet (on_message c t p q r n) u = cacheGet c u := by
  refine ⟨?_, cacheGet_write_self c t _, fun u hu =>
    cacheGet_write_other c t u _ hu⟩
  rw [on_message, keys_cacheWrite]
  by_cases hm : t ∈ c.map Prod.fst
  · simp [hm, h]
  · simp [List.nodup_append, hm, h]

/-- Witness for C7: overwriting an existing topic entry replaces it with
exactly the new snapshot. -/
theorem cache_one_entry_last_write_wins_witness :
    cacheGet (on_message [("a/b", ⟨"a/b", "1", 0, true, 0⟩)]
        "a/b" "2" 1 false 9) "a/b"
      = some ⟨"a/b", "2", 1, false, 9⟩ :=
  (cache_one_entry_last_write_wins [("a/b", ⟨"a/b", "1", 0, true, 0⟩)]
    "a/b" "2" 1 false 9 (by simp)).2.1

/-! ### Matcher lemmas -/

/-- `leadsWith` decides "the list starts with the needle". -/
theorem leadsWith_iff (n : List Char) : ∀ h : List Char,
    leadsWith n h = true ↔ ∃ r, h = n ++ r := by
  induction n with
  | nil =>
      intro h
      simp [leadsWith]
  | cons c cs ih =>
      intro h
      cases h with
      | nil =>
          simp [leadsWith]
      | cons d hs =>
          simp only [leadsWith, Bool.and_eq_true, beq_iff_eq]
          constructor
          · rintro ⟨rfl, hl⟩
            rcases (ih hs).mp hl with ⟨r, rfl⟩
            exact ⟨r, rfl⟩
          · rintro ⟨r, hr⟩
            injection hr with h1 h2
            exact ⟨h1.symm, (ih hs).mpr ⟨r, h2⟩⟩

/-- `strIn` decides substring containment. -/
theorem strIn_iff (n : List Char) : ∀ h : List Char,
    strIn n h = true ↔ ∃ u v, h = u ++ n ++ v := by
  intro h
  induction h with
  | nil =>
      constructor
      · intro hs
        have : n = [] := by simpa [strIn] using hs
        exact ⟨[], [], by simp [this]⟩
      · rintro ⟨u, v, hv⟩
        have hn : n = [] := by
          rcases List.append_eq_nil.mp hv.symm with ⟨h1, -⟩
          exact (List.append_eq_nil.mp h1).2
        simp [strIn, hn]
  | cons a hs ih =>
      constructor
      · intro hq
        have hq' : leadsWith n (a :: hs) = true ∨ strIn n hs = true := by
          simpa [strIn] using hq
        rcases hq' with hl | hr
        · rcases (leadsWith_iff n (a :: hs)).mp hl with ⟨r, hr⟩
          exact ⟨[], r, by simpa using hr⟩
        · rcases ih.mp hr with ⟨u, v, rfl⟩
          exact ⟨a :: u, v, rfl⟩
      · rintro ⟨u, v, hv⟩
        cases u with
        | nil =>
            have hv' : a :: hs = n ++ v := by simpa using hv
            have hl : leadsWith n (a :: hs) = true :=
              (leadsWith_iff n (a :: hs)).mpr ⟨v, hv'⟩
            simp [strIn, hl]
        | cons b u' =>
            injection hv with h1 h2
            have : strIn n hs = true := ih.mpr ⟨u', v, h2⟩
            simp [strIn, this]

/-- `.*` matches any newline-free tail. -/
theorem rmatch_star_all (ds : List Char) (h : '\n' ∉ ds) :
    rmatch [RTok.anyStar] ds = true := by
  induction ds with
  | nil => simp [rmatch]
  | cons d ds ih =>
      have hd : d ≠ '\n' := fun hh => h (hh ▸ List.mem_cons_self d ds)
      have : rmatch [RTok.anyStar] ds = true :=
        ih fun hm => h (List.mem_cons_of_mem d hm)
      simp [rmatch, hd, this]

/-- A regex of literals followed by `.*` matches a newline-free string
exactly when the string starts with those literals. -/
theorem rmatch_lits_star (pre : List Char) : ∀ ds : List Char, '\n' ∉ ds →
    rmatch (pre.map RTok.lit ++ [RTok.anyStar]) ds = leadsWith pre ds := by
  induction pre with
  | nil =>
      intro ds h
      simp [leadsWith, rmatch_star_all ds h]
  | cons p ps ih =>
      intro ds h
      cases ds with
      | nil => simp [rmatch, leadsWith]
      | cons d ds2 =>
          have : '\n' ∉ ds2 := fun hm => h (List.mem_cons_of_mem d hm)
          simp [rmatch, leadsWith, ih ds2 this]

/-- `[^/]+` matches exactly the non-empty slash-free strings. -/
theorem rmatch_nsp : ∀ ds : List Char,
    rmatch [RTok.nonSlashPlus] ds = true ↔ (ds ≠ [] ∧ '/' ∉ ds) := by
  intro ds
  induction ds with
  | nil => simp [rmatch]
  | cons d ds2 ih =>
      cases ds2 with
      | nil =>
          constructor
          · intro hm
            have hd : ¬ d = '/' := by simpa [rmatch] using hm
            exact ⟨by simp, fun hmem => hd (List.mem_singleton.mp hmem).symm⟩
          · rintro ⟨-, hmem⟩
            have hd : ¬ d = '/' := fun hh => hmem (by simp [hh])
            simp [rmatch, hd]
      | cons e ds3 =>
          have hconv : rmatch [RTok.nonSlashPlus] (d :: e :: ds3) = true
              ↔ (¬ d = '/' ∧ rmatch [RTok.nonSlashPlus] (e :: ds3) = true) := by
            simp [rmatch]
          rw [hconv, ih]
          simp only [ne_eq, List.mem_cons, not_or]
          constructor
          · rintro ⟨hd, -, he, h3⟩
            exact ⟨by simp, fun hh => hd hh.symm, he, h3⟩
          · rintro ⟨-, hd, he, h3⟩
            exact ⟨fun hh => hd hh.symm, by simp, he, h3⟩

/-! ### C2: broker-wildcard matching semantics -/

/-- C2 (counterexample): the broker-wildcard pattern `a/#` does *not*
match the parent topic `a` itself: the translation is the anchored regex
`^a/.*$`, whose literal `/` must be present in the topic path. -/
theorem search_hash_parent_cex : searchMatches "a/#" "a" = some false := by
  simp [searchMatches, mqttWildcardChars, mqttTranslate, tokOfChar,
    regexSpecial, pyAnchoredMatch, rmatch]

/-- C2 (amended): broker-wildcard matching is an anchored full-string
match in which `+` matches exactly one non-empty path segment and `#`
matches all remaining characters after the literally-required separator:
`a/#` matches exactly the topics starting with `a/` — so `a/b` and
`a/b/c` match, but the parent topic `a` itself does not. -/
theorem search_mqtt_wildcard_semantics :
    (∀ t : String, '\n' ∉ t.data →
      (searchMatches "a/#" t = some true ↔ ∃ r, t.data = 'a' :: '/' :: r))
    ∧ (∀ t : String,
        searchMatches "+" t = some true ↔ (t.data ≠ [] ∧ '/' ∉ t.data))
    ∧ searchMatches "a/#" "a/b" = some true
    ∧ searchMatches "a/#" "a/b/c" = some true := by
  refine ⟨fun t hnl => ?_, fun t => ?_, ?_, ?_⟩
  · have hred : searchMatches "a/#" t
        = some (pyAnchoredMatch [RTok.lit 'a', RTok.lit '/', RTok.anyStar] t) := by
      simp [searchMatches, mqttWildcardChars, mqttTranslate, tokOfChar,
        regexSpecial]
    have hnl' : t.data.getLast? ≠ some '\n' := by
      intro hh
      rcases List.mem_getLast?_eq_getLast (Option.mem_def.mpr hh) with ⟨hne, hx⟩
      exact hnl (hx ▸ List.getLast_mem hne)
    have hpy : pyAnchoredMatch [RTok.lit 'a', RTok.lit '/', RTok.anyStar] t
        = rmatch [RTok.lit 'a', RTok.lit '/', RTok.anyStar] t.data := by
      unfold pyAnchoredMatch
      cases hc : t.data.getLast? with
      | none => simp
      | some c =>
          have hcn : ¬ c = '\n' := fun hh => hnl' (hh ▸ hc)
          simp [hcn]
    have hlits : rmatch [RTok.lit 'a', RTok.lit '/', RTok.anyStar] t.data
        = leadsWith ['a', '/'] t.data := by
      simpa using rmatch_lits_star ['a', '/'] t.data hnl
    rw [hred, hpy, hlits, Option.some_inj, leadsWith_iff]
    simp
  · have hred : searchMatches "+" t
        = some (pyAnchoredMatch [RTok.nonSlashPlus] t) := by
      simp [searchMatches, mqttWildcardChars, mqttTranslate, tokOfChar,
        regexSpecial]
    rw [hred, Option.some_inj]
    unfold pyAnchoredMatch
    rcases List.eq_nil_or_concat t.data with he | ⟨xs, x, he⟩
    · rw [he]
      simp [rmatch]
    · rw [he]
      rw [show xs.concat x = xs ++ [x] from List.concat_eq_append xs x]
      rw [List.getLast?_concat, List.dropLast_concat]
      by_cases hx : x = '\n'
      · subst hx
        simp [rmatch_nsp]
      · have hxf : (x == '\n') = false := by simp [hx]
        simp [hxf, rmatch_nsp]
  · simp [searchMatches, mqttWildcardChars, mqttTranslate, tokOfChar,
      regexSpecial, pyAnchoredMatch, rmatch]
  · simp [searchMatches, mqttWildcardChars, mqttTranslate, tokOfChar,
      regexSpecial, pyAnchoredMatch, rmatch]

/-- Witness for C2's amended theorem at concrete inputs. -/
theorem search_mqtt_wildcard_semantics_witness :
    searchMatches "a/#" "a/zz" = some true :=
  (search_mqtt_wildcard_semantics.1 "a/zz" (by decide)).mpr ⟨['z', 'z'], rfl⟩

/-! ### C9: regex metacharacters are not escaped -/

/-- C9: in the broker-wildcard tier the pattern characters other than `+`
and `#` are inserted into the regex unescaped, so regex metacharacters
keep their regex meaning: the pattern `a.b/#` matches the topic path
`axb/c` (`.` matches `x`), although the pattern read literally (the
escaped translation) does not match that topic. -/
theorem search_regex_unescaped_cex :
    searchMatches "a.b/#" "axb/c" = some true
    ∧ rmatch (mqttTranslateEscaped "a.b/#".data) "axb/c".data = false := by
  constructor
  · simp [searchMatches, mqttWildcardChars, mqttTranslate, tokOfChar,
      regexSpecial, pyAnchoredMatch, rmatch]
  · simp [mqttTranslateEscaped, tokOfCharEscaped, rmatch]

/-! ### Glob lemmas for the second tier -/

/-- A bare `*` matches everything. -/
theorem globMatch_star_alone (ds : List Char) : globMatch ['*'] ds = true := by
  induction ds with
  | nil => simp [globMatch]
  | cons d ds ih => simp [globMatch, ih]

/-- A non-`*` head never matches the empty string. -/
theorem globMatch_cons_nil (p : Char) (ps : List Char) (hp : p ≠ '*') :
    globMatch (p :: ps) [] = false := by
  simp [globMatch, hp]

/-- A leading `*` peels off an arbitrary consumed head. -/
theorem globMatch_leading_star (ps : List Char) : ∀ ds : List Char,
    globMatch ('*' :: ps) ds = true
      ↔ ∃ u s, ds = u ++ s ∧ globMatch ps s = true := by
  intro ds
  induction ds with
  | nil =>
      have hred : globMatch ('*' :: ps) [] = globMatch ps [] := by
        simp [globMatch]
      rw [hred]
      constructor
      · intro hm
        exact ⟨[], [], rfl, hm⟩
      · rintro ⟨u, s, he, hs⟩
        obtain ⟨rfl, rfl⟩ := List.append_eq_nil.mp he.symm
        exact hs
  | cons d ds2 ih =>
      have hred : globMatch ('*' :: ps) (d :: ds2)
          = (globMatch ps (d :: ds2) || globMatch ('*' :: ps) ds2) := by
        simp [globMatch]
      rw [hred]
      constructor
      · intro hm
        have hm' : globMatch ps (d :: ds2) = true
            ∨ globMatch ('*' :: ps) ds2 = true := by simpa using hm
        rcases hm' with h1 | h2
        · exact ⟨[], d :: ds2, rfl, h1⟩
        · rcases ih.mp h2 with ⟨u, s, rfl, hs⟩
          exact ⟨d :: u, s, rfl, hs⟩
      · rintro ⟨u, s, he, hs⟩
        cases u with
        | nil =>
            have h1 : globMatch ps (d :: ds2) = true := by
              rw [he]
              simpa using hs
            simp [h1]
        | cons x u' =>
            injection he with h1 h2
            have h3 : globMatch ('*' :: ps) ds2 = true := ih.mpr ⟨u', s, h2, hs⟩
            simp [h3]

/-- A trailing `*` absorbs an arbitrary remaining tail. -/
theorem globMatch_trailing_star (ps : List Char) : ∀ ds : List Char,
    globMatch (ps ++ ['*']) ds = true
      ↔ ∃ s v, ds = s ++ v ∧ globMatch ps s = true := by
  induction ps with
  | nil =>
      intro ds
      constructor
      · intro _
        exact ⟨[], ds, rfl, by simp [globMatch]⟩
      · intro _
        simpa using globMatch_star_alone ds
  | cons p ps' ih =>
      intro ds
      by_cases hp : p = '*'
      · subst hp
        rw [show ('*' :: ps') ++ ['*'] = '*' :: (ps' ++ ['*']) from rfl,
          globMatch_leading_star]
        constructor
        · rintro ⟨u, s, rfl, hs⟩
          rcases (ih s).mp hs with ⟨x, v, rfl, hx⟩
          refine ⟨u ++ x, v, by rw [List.append_assoc], ?_⟩
          exact (globMatch_leading_star ps' (u ++ x)).mpr ⟨u, x, rfl, hx⟩
        · rintro ⟨s, v, rfl, hs⟩
          rcases (globMatch_leading_star ps' s).mp hs with ⟨u, x, rfl, hx⟩
          refine ⟨u, x ++ v, by rw [List.append_assoc], ?_⟩
          exact (ih (x ++ v)).mpr ⟨x, v, rfl, hx⟩
      · cases ds with
        | nil =>
            constructor
            · intro hm
              rw [show (p :: ps') ++ ['*'] = p :: (ps' ++ ['*']) from rfl,
                globMatch_cons_nil p _ hp] at hm
              cases hm
            · rintro ⟨s, v, he, hs⟩
              obtain ⟨rfl, rfl⟩ := List.append_eq_nil.mp he.symm
              rw [globMatch_cons_nil p ps' hp] at hs
              cases hs
        | cons d ds2 =>
            by_cases hq : p = '?'
            · subst hq
              have hred : globMatch (('?' :: ps') ++ ['*']) (d :: ds2)
                  = globMatch (ps' ++ ['*']) ds2 := by
                simp [globMatch]
              rw [hred, ih ds2]
              constructor
              · rintro ⟨s, v, rfl, hs⟩
                exact ⟨d :: s, v, rfl, by simp [globMatch, hs]⟩
              · rintro ⟨s, v, he, hs⟩
                cases s with
                | nil =>
                    rw [globMatch_cons_nil '?' ps' (by decide)] at hs
                    cases hs
                | cons x s2 =>
                    injection he with h1 h2
                    have hs2 : globMatch ps' s2 = true := by
                      simpa [globMatch] using hs
                    exact ⟨s2, v, h2, hs2⟩
            · by_cases hd : p = d
              · subst hd
                have hred : globMatch ((p :: ps') ++ ['*']) (p :: ds2)
                    = globMatch (ps' ++ ['*']) ds2 := by
                  simp [globMatch, hp, hq]
                rw [hred, ih ds2]
                constructor
                · rintro ⟨s, v, rfl, hs⟩
                  exact ⟨p :: s, v, rfl, by simp [globMatch, hp, hq, hs]⟩
                · rintro ⟨s, v, he, hs⟩
                  cases s with
                  | nil =>
                      rw [globMatch_cons_nil p ps' hp] at hs
                      cases hs
                  | cons x s2 =>
                      injection he with h1 h2
                      subst h1
                      have hs2 : globMatch ps' s2 = true := by
                        simpa [globMatch, hp, hq] using hs
                      exact ⟨s2, v, h2, hs2⟩
              · have hred : globMatch ((p :: ps') ++ ['*']) (d :: ds2)
                    = false := by
                  simp [globMatch, hp, hq, hd]
                rw [hred]
                constructor
                · intro hh
                  cases hh
                · rintro ⟨s, v, he, hs⟩
                  cases s with
                  | nil =>
                      rw [globMatch_cons_nil p ps' hp] at hs
                      cases hs
                  | cons x s2 =>
                      injection he with h1 h2
                      rw [← h1] at hs
                      have hz : globMatch (p :: ps') (d :: s2) = false := by
                        simp [globMatch, hp, hq, hd]
                      rw [hz] at hs
                      cases hs

/-- The implicit `*...*` wrapping of the second tier is exactly
"some substring of the topic matches the glob". -/
theorem globMatch_wrapped (ps ds : List Char) :
    globMatch ('*' :: ps ++ ['*']) ds = true
      ↔ ∃ u s v, ds = u ++ s ++ v ∧ globMatch ps s = true := by
  rw [show ('*' :: ps) ++ ['*'] = '*' :: (ps ++ ['*']) from rfl,
    globMatch_leading_star]
  constructor
  · rintro ⟨u, s, rfl, hs⟩
    rcases (globMatch_trailing_star ps s).mp hs with ⟨x, v, rfl, hx⟩
    exact ⟨u, x, v, by rw [List.append_assoc], hx⟩
  · rintro ⟨u, x, v, rfl, hx⟩
    exact ⟨u, x ++ v, by rw [List.append_assoc],
      (globMatch_trailing_star ps (x ++ v)).mpr ⟨x, v, rfl, hx⟩⟩

/-! ### C4: the three classification tiers -/

/-- C4: classification is a pure function of the pattern and ordered:
a pattern containing `+` or `#` always takes the broker-wildcard tier
(even when `*`/`?` are also present); otherwise a pattern with `*` or `?`
is a glob and matches exactly when some substring of the topic path
matches the glob (the implicit `*...*` wrapping); otherwise the pattern
is a plain keyword and matches exactly when the case-folded topic path
contains the case-folded pattern as a substring. -/
theorem search_three_tiers (p t : String) :
    (('+' ∈ p.data ∨ '#' ∈ p.data) →
      searchMatches p t
        = (mqttTranslate p.data).map (fun ts => pyAnchoredMatch ts t))
    ∧ (('+' ∉ p.data ∧ '#' ∉ p.data ∧ ('*' ∈ p.data ∨ '?' ∈ p.data)
          ∧ '[' ∉ p.data) →
      (searchMatches p t = some true
        ↔ ∃ u s v, t.data = u ++ s ++ v ∧ globMatch p.data s = true))
    ∧ ((∀ c ∈ p.data, c ∉ mqttWildcardChars) →
      (searchMatches p t = some true
        ↔ ∃ u v, t.data.map lowerCh = u ++ p.data.map lowerCh ++ v)) := by
  refine ⟨fun hw => ?_, fun hw => ?_, fun hw => ?_⟩
  · have hex : ∃ x ∈ p.data, x ∈ mqttWildcardChars := by
      rcases hw with hc | hc
      · exact ⟨'+', hc, by decide⟩
      · exact ⟨'#', hc, by decide⟩
    simp [searchMatches, hex, hw]
  · obtain ⟨h1, h2, h3, h4⟩ := hw
    have hex : ∃ x ∈ p.data, x ∈ mqttWildcardChars := by
      rcases h3 with hc | hc
      · exact ⟨'*', hc, by decide⟩
      · exact ⟨'?', hc, by decide⟩
    have hred : searchMatches p t
        = some (globMatch ('*' :: p.data ++ ['*']) t.data) := by
      simp [searchMatches, hex, h1, h2, h4]
    rw [hred, Option.some_inj]
    exact globMatch_wrapped p.data t.data
  · have hnex : ¬ ∃ x ∈ p.data, x ∈ mqttWildcardChars := by
      rintro ⟨x, hx, hmem⟩
      exact hw x hx hmem
    have hred : searchMatches p t
        = some (strIn (p.data.map lowerCh) (t.data.map lowerCh)) := by
      simp [searchMatches, hnex]
    rw [hred, Option.some_inj]
    exact strIn_iff (p.data.map lowerCh) (t.data.map lowerCh)

/-- Witness for C4 at a concrete glob-tier input (Scenario C of the
spec). -/
theorem search_three_tiers_witness :
    searchMatches "*speed*" "line1/speed" = some true :=
  ((search_three_tiers "*speed*" "line1/speed").2.1
    ⟨by decide, by decide, Or.inl (by decide), by decide⟩).mpr
    ⟨"line1/".data, "speed".data, [], by decide, by simp [globMatch]⟩

/-! ### C8: serialization of discovery sweeps -/

/-- A program index holding an action is within the program. -/
theorem prog_get_lt {n : Nat} {a : DiscAction}
    (h : discoverProg.get? n = some a) : n < 7 :=
  List.get?_eq_some.mp h |>.1

/-- `acquire` only occurs at program index 0. -/
theorem prog_acquire_eq {n : Nat}
    (h : discoverProg.get? n = some DiscAction.acquire) : n = 0 := by
  have hl := prog_get_lt h
  interval_cases n <;> revert h <;> decide

/-- `release` only occurs at program index 6. -/
theorem prog_release_eq {n : Nat}
    (h : discoverProg.get? n = some DiscAction.release) : n = 6 := by
  have hl := prog_get_lt h
  interval_cases n <;> revert h <;> decide

/-- Every action other than `acquire`/`release` sits strictly inside the
critical section. -/
theorem prog_mid {n : Nat} {a : DiscAction}
    (h : discoverProg.get? n = some a) (ha : a ≠ DiscAction.acquire)
    (hr : a ≠ DiscAction.release) : 1 ≤ n ∧ n ≤ 5 := by
  have hl := prog_get_lt h
  interval_cases n
  · rw [show discoverProg.get? 0 = some DiscAction.acquire from rfl] at h
    injection h with hh
    exact absurd hh.symm ha
  · omega
  · omega
  · omega
  · omega
  · omega
  · rw [show discoverProg.get? 6 = some DiscAction.release from rfl] at h
    injection h with hh
    exact absurd hh.symm hr

/-- Taking one more program step appends the fetched action. -/
theorem take_succ_of_get? {l : List DiscAction} {n : Nat} {a : DiscAction}
    (h : l.get? n = some a) : l.take (n + 1) = l.take n ++ [a] := by
  rw [List.take_succ, List.get?_eq_getElem?] at *
  rw [h]
  rfl

/-- Appending a task's own event extends its filtered trace. -/
theorem filter_append_self (i : Bool) (a : DiscAction)
    (t : List (Bool × DiscAction)) :
    (t ++ [(i, a)]).filter (fun e => e.1 == i)
      = t.filter (fun e => e.1 == i) ++ [(i, a)] := by
  rw [List.filter_append]
  simp

/-- Appending the other task's event leaves a task's filtered trace
unchanged. -/
theorem filter_append_other {i j : Bool} (hij : ¬ i = j) (a : DiscAction)
    (t : List (Bool × DiscAction)) :
    (t ++ [(i, a)]).filter (fun e => e.1 == j)
      = t.filter (fun e => e.1 == j) := by
  rw [List.filter_append]
  simp [hij]

/-- The inductive invariant of the two-task scheduler: each task's
filtered trace is exactly the prefix of `discoverProg` it has executed,
program counters stay in range, and a task strictly inside the critical
section holds the lock. -/
def Inv (s : SchedSt) (t : List (Bool × DiscAction)) : Prop :=
  (∀ i, t.filter (fun e => e.1 == i)
      = (discoverProg.take (s.pc i)).map (fun a => (i, a)))
  ∧ (∀ i, s.pc i ≤ 7)
  ∧ (∀ i, 1 ≤ s.pc i ∧ s.pc i ≤ 6 → s.lock = some i)

/-- `bump` at the stepped task. -/
theorem bump_self (s : SchedSt) (i : Bool) : bump s i i = s.pc i + 1 := by
  simp [bump]

/-- `bump` at the other task. -/
theorem bump_other (s : SchedSt) {i j : Bool} (h : ¬ j = i) :
    bump s i j = s.pc j := by
  simp [bump, h]

/-- Every reachable state/trace pair satisfies the invariant. -/
theorem reaches_inv {s : SchedSt} {t : List (Bool × DiscAction)}
    (h : Reaches s t) : Inv s t := by
  induction h with
  | init =>
      refine ⟨fun i => rfl, fun i => ?_, fun i hi => ?_⟩
      · show (0 : Nat) ≤ 7
        omega
      · exact absurd (show (1 : Nat) ≤ 0 from hi.1) (by decide)
  | @step s t e s2 hr hstep ih =>
      obtain ⟨ih1, ih2, ih3⟩ := ih
      cases hstep with
      | acquire i hget hlock =>
          refine ⟨fun j => ?_, fun j => ?_, fun j hin => ?_⟩
          · by_cases hji : j = i
            · rw [hji]
              show (t ++ [(i, DiscAction.acquire)]).filter (fun e => e.1 == i)
                  = (discoverProg.take (bump s i i)).map (fun a => (i, a))
              rw [bump_self, filter_append_self, ih1 i,
                take_succ_of_get? hget, List.map_append]
              rfl
            · show (t ++ [(i, DiscAction.acquire)]).filter (fun e => e.1 == j)
                  = (discoverProg.take (bump s i j)).map (fun a => (j, a))
              rw [bump_other s hji,
                filter_append_other (fun hh => hji hh.symm), ih1 j]
          · by_cases hji : j = i
            · rw [hji]
              show bump s i i ≤ 7
              rw [bump_self]
              have := prog_get_lt hget
              omega
            · show bump s i j ≤ 7
              rw [bump_other s hji]
              exact ih2 j
          · by_cases hji : j = i
            · rw [hji]
            · have hin' : 1 ≤ s.pc j ∧ s.pc j ≤ 6 := by
                rw [← bump_other s hji]
                exact hin
              have hcon := ih3 j hin'
              rw [hlock] at hcon
              simp at hcon
      | inside i a hget hna hnr hlock =>
          refine ⟨fun j => ?_, fun j => ?_, fun j hin => ?_⟩
          · by_cases hji : j = i
            · rw [hji]
              show (t ++ [(i, a)]).filter (fun e => e.1 == i)
                  = (discoverProg.take (bump s i i)).map (fun b => (i, b))
              rw [bump_self, filter_append_self, ih1 i,
                take_succ_of_get? hget, List.map_append]
              rfl
            · show (t ++ [(i, a)]).filter (fun e => e.1 == j)
                  = (discoverProg.take (bump s i j)).map (fun b => (j, b))
              rw [bump_other s hji,
                filter_append_other (fun hh => hji hh.symm), ih1 j]
          · by_cases hji : j = i
            · rw [hji]
              show bump s i i ≤ 7
              rw [bump_self]
              have := prog_get_lt hget
              omega
            · show bump s i j ≤ 7
              rw [bump_other s hji]
              exact ih2 j
          · by_cases hji : j = i
            · rw [hji]
            · have hin' : 1 ≤ s.pc j ∧ s.pc j ≤ 6 := by
                rw [← bump_other s hji]
                exact hin
              have hcon := ih3 j hin'
              rw [hlock] at hcon
              injection hcon with hh
              exact absurd hh.symm hji
      | release i hget hlock =>
          have hpc : s.pc i = 6 := prog_release_eq hget
          refine ⟨fun j => ?_, fun j => ?_, fun j hin => ?_⟩
          · by_cases hji : j = i
            · rw [hji]
              show (t ++ [(i, DiscAction.release)]).filter (fun e => e.1 == i)
                  = (discoverProg.take (bump s i i)).map (fun a => (i, a))
              rw [bump_self, filter_append_self, ih1 i,
                take_succ_of_get? hget, List.map_append]
              rfl
            · show (t ++ [(i, DiscAction.release)]).filter (fun e => e.1 == j)
                  = (discoverProg.take (bump s i j)).map (fun a => (j, a))
              rw [bump_other s hji,
                filter_append_other (fun hh => hji hh.symm), ih1 j]
          · by_cases hji : j = i
            · rw [hji]
              show bump s i i ≤ 7
              rw [bump_self, hpc]
            · show bump s i j ≤ 7
              rw [bump_other s hji]
              exact ih2 j
          · by_cases hji : j = i
            · rw [hji] at hin
              have h2 : s.pc i + 1 ≤ 6 := by
                rw [← bump_self s i]
                exact hin.2
              exact absurd h2 (by omega)
            · have hin' : 1 ≤ s.pc j ∧ s.pc j ≤ 6 := by
                rw [← bump_other s hji]
                exact hin
              have hcon := ih3 j hin'
              rw [hlock] at hcon
              injection hcon with hh
              exact absurd hh.symm hji

/-- A `clear` in an executed prefix means the task is at least past
program index 2. -/
theorem clear_mem_take {n : Nat}
    (h : DiscAction.clear ∈ discoverProg.take n) : 2 ≤ n := by
  by_contra hn
  push_neg at hn
  interval_cases n <;> revert h <;> decide

/-- C8: two concurrent discover calls never interleave.  In every
reachable trace, whenever task `j` performs its cache-clear and the other
task `i` had already performed its own clear earlier in the trace, task
`i` has also already released the lock — the second call's clear-and-
collect starts only after the first call's whole
subscribe→collect→unsubscribe→snapshot sequence completed. -/
theorem discover_serialized {s : SchedSt} {t u v : List (Bool × DiscAction)}
    {i j : Bool} (hr : Reaches s t)
    (hd : t = u ++ (j, DiscAction.clear) :: v)
    (hu : (i, DiscAction.clear) ∈ u) (hij : i ≠ j) :
    (i, DiscAction.release) ∈ u := by
  induction hr generalizing u v with
  | init =>
      exact absurd (List.append_eq_nil.mp hd.symm).2 (List.cons_ne_nil _ _)
  | @step s t e s2 hr hstep ih =>
      rcases List.eq_nil_or_concat v with rfl | ⟨v', ev, rfl⟩
      · obtain ⟨rfl, he⟩ := List.append_inj' hd rfl
        injection he with he1 he2
        subst he1
        cases hstep with
        | inside _ _ hget hna hnr hlock =>
            obtain ⟨inv1, inv2, inv3⟩ := reaches_inv hr
            have hmemf : (i, DiscAction.clear)
                ∈ t.filter (fun e => e.1 == i) :=
              List.mem_filter.mpr ⟨hu, by simp⟩
            rw [inv1 i] at hmemf
            have hclear : DiscAction.clear ∈ discoverProg.take (s.pc i) := by
              rcases List.mem_map.mp hmemf with ⟨a', ha', he2⟩
              injection he2 with h1 h2
              rwa [h2] at ha'
            have hpc2 : 2 ≤ s.pc i := clear_mem_take hclear
            have hnotmid : ¬ (1 ≤ s.pc i ∧ s.pc i ≤ 6) := by
              intro hmm
              have hcon := inv3 i hmm
              rw [hlock] at hcon
              injection hcon with hh
              exact hij hh.symm
            have hpc7 : s.pc i = 7 := by
              have := inv2 i
              omega
            have hrel : (i, DiscAction.release)
                ∈ t.filter (fun e => e.1 == i) := by
              rw [inv1 i, hpc7]
              exact List.mem_map.mpr
                ⟨DiscAction.release, by decide, rfl⟩
            exact List.mem_of_mem_filter hrel
      · rw [List.concat_eq_append] at hd
        have hd' : t ++ [e]
            = (u ++ (j, DiscAction.clear) :: v') ++ [ev] := by
          rw [hd]
          simp
        obtain ⟨h1, h2⟩ := List.append_inj' hd' rfl
        exact ih h1 hu

/-- Witness for C8: a concrete schedule in which task `false` runs a full
discover sweep, then task `true` acquires the lock and clears; task
`false`'s release indeed precedes the second clear. -/
theorem discover_serialized_witness :
    (false, DiscAction.release) ∈
      [(false, DiscAction.acquire), (false, DiscAction.clear),
       (false, DiscAction.subscribe), (false, DiscAction.wait),
       (false, DiscAction.unsubscribe), (false, DiscAction.snapshot),
       (false, DiscAction.release), (true, DiscAction.acquire)] := by
  have h0 : Reaches ⟨fun _ => 0, none⟩ [] := Reaches.init
  have h1 := h0.step (Step.acquire _ false rfl rfl)
  have h2 := h1.step
    (Step.inside _ false DiscAction.clear rfl (by decide) (by decide) rfl)
  have h3 := h2.step
    (Step.inside _ false DiscAction.subscribe rfl (by decide) (by decide) rfl)
  have h4 := h3.step
    (Step.inside _ false DiscAction.wait rfl (by decide) (by decide) rfl)
  have h5 := h4.step
    (Step.inside _ false DiscAction.unsubscribe rfl (by decide) (by decide) rfl)
  have h6 := h5.step
    (Step.inside _ false DiscAction.snapshot rfl (by decide) (by decide) rfl)
  have h7 := h6.step (Step.release _ false rfl rfl)
  have h8 := h7.step (Step.acquire _ true rfl rfl)
  have h9 := h8.step
    (Step.inside _ true DiscAction.clear rfl (by decide) (by decide) rfl)
  exact discover_serialized
    (u := [(false, DiscAction.acquire), (false, DiscAction.clear),
           (false, DiscAction.subscribe), (false, DiscAction.wait),
           (false, DiscAction.unsubscribe), (false, DiscAction.snapshot),
           (false, DiscAction.release), (true, DiscAction.acquire)])
    (v := []) (i := false) (j := true) h9 (by decide) (by decide) (by decide)

end MqttMcp
